import Mathlib

/-!
Shallow embedding of the `my_color_lib` Rust crate (sources: `src/util.rs`,
`src/channel/angle.rs`, `src/color.rs`, `src/color/linrgb.rs`).

Floating-point (`f32`) payloads are embedded as exact rationals `ℚ`; the
Rust `%` operator on floats (truncated remainder, sign of the dividend) is
embedded as `fmodQ` below.  `powf` is embedded as `Real.rpow` on `ℝ`.
Rust integer types (`i16`, `i32`) are embedded as `ℤ` with `Int.tmod`
for the truncating `%`; `to_range` never overflows the 16-bit range for
in-range intermediate values, so one `ℤ` model covers both widths.
Functions that can panic are embedded returning `Option`.
-/

namespace MyColorLib

/-! ### util.rs: `clamp` (lines 60-78)

`clamp` is generic over `PartialOrd`; the interesting instantiation is
`f32`, whose `partial_cmp` returns `None` when either side is NaN.
`F32` adjoins a NaN point to `ℚ` and `pcmp` embeds `f32::partial_cmp`. -/

inductive F32 where
  | nan : F32
  | fin : ℚ → F32
deriving DecidableEq

/-- Embedding of `f32::partial_cmp`: `None` whenever either side is NaN,
otherwise the total order on the finite values. -/
def pcmp : F32 → F32 → Option Ordering
  | .fin a, .fin b => some (if a < b then .lt else if b < a then .gt else .eq)
  | _, _ => none

/-- `util::clamp` (util.rs lines 68-78): match on `value.partial_cmp(&max)`;
`Some(Less)` recurses into the comparison with `min`, every other outcome
(including `None`) returns `max`; in the inner match only `Some(Greater)`
returns `value`, every other outcome (including `None`) returns `min`. -/
def clampF (value lo hi : F32) : F32 :=
  match pcmp value hi with
  | some .lt =>
    match pcmp value lo with
    | some .gt => value
    | _ => lo
  | _ => hi

/-- `util::clamp` instantiated at finite (non-NaN) values, where
`partial_cmp` is the total order on `ℚ`. -/
def clampQ (value lo hi : ℚ) : ℚ :=
  if value < hi then (if lo < value then value else lo) else hi

/-! ### Rust `%` on floats, embedded over `ℚ` -/

/-- Truncation toward zero of a rational (what casting/
truncated division does in Rust). -/
def ratTrunc (q : ℚ) : ℤ := if 0 ≤ q then ⌊q⌋ else ⌈q⌉

/-- Rust's `%` on floats: `a - p * trunc(a / p)` (remainder of truncated
division, sign of the dividend). -/
def fmodQ (a p : ℚ) : ℚ := a - p * ratTrunc (a / p)

/-- The wrap-into-`[0, p)` pattern used by every `to_range`/`Deg::new` in
the crate: take `a % p`, and add one period if the remainder is negative. -/
def wrapP (a p : ℚ) : ℚ :=
  if fmodQ a p < 0 then fmodQ a p + p else fmodQ a p

/-! ### channel/angle.rs -/

/-- `Deg<f32>::to_range` (angle.rs lines 28-35): `self.0 % 360.0`, plus
`360.0` if negative. -/
def Deg.to_range (x : ℚ) : ℚ := wrapP x 360

/-- `Deg<i16>` / `Deg<i32>` `to_range` (angle.rs lines 47-54, macro
`impl_int_deg_channel!`): `self.0 % 360` (Rust truncating integer `%`,
i.e. `Int.tmod`), plus `360` if negative. -/
def DegInt.to_range (n : ℤ) : ℤ :=
  if Int.tmod n 360 < 0 then Int.tmod n 360 + 360 else Int.tmod n 360

/-- The `f32` value of `2.0 * std::f32::consts::PI` (the exact rational
value of the single-precision constant used as `Rad`'s period). -/
def radPeriod : ℚ := 13176795 / 2097152

/-- `Rad::to_range` (angle.rs lines 68-75): wrap modulo `2π` (as `f32`). -/
def Rad.to_range (x : ℚ) : ℚ := wrapP x radPeriod

/-- `util::Deg::new` (util.rs lines 114-126): after the finiteness check
(every `ℚ` is finite, so the panic branch is unreachable in this
embedding) it wraps with exactly the `% 360` + conditional add pattern. -/
def UtilDeg.new (degrees : ℚ) : ℚ := wrapP degrees 360

/-! Arithmetic on `Deg` (angle.rs `impl_deg_ops!`, lines 141-162 and
187-193).  The by-value operators compute the underlying operation and
then call `to_range`; the `*_assign` operators delegate to the underlying
type's assignment operator and do NOT call `to_range`. -/

def Deg.add (a b : ℚ) : ℚ := Deg.to_range (a + b)

def Deg.sub (a b : ℚ) : ℚ := Deg.to_range (a - b)

def Deg.mul (a b : ℚ) : ℚ := Deg.to_range (a * b)

def Deg.div (a b : ℚ) : ℚ := Deg.to_range (a / b)

def Deg.rem (a b : ℚ) : ℚ := Deg.to_range (fmodQ a b)

def Deg.add_assign (a b : ℚ) : ℚ := a + b

def Deg.sub_assign (a b : ℚ) : ℚ := a - b

def Deg.mul_assign (a b : ℚ) : ℚ := a * b

def Deg.div_assign (a b : ℚ) : ℚ := a / b

def Deg.rem_assign (a b : ℚ) : ℚ := fmodQ a b

/-! ### Gamma codec (util.rs lines 4-5, 80-98; color.rs lines 4-7)

`powf` cannot be evaluated exactly, so these live on `ℝ` with
`Real.rpow`; every branch condition and rational part stays exact. -/

/-- `util::GAMMA` and the private `color.rs` `GAMMA`: both `2.4`. -/
def GAMMA : ℝ := 2.4

/-- Rust `f32::powf` on the (nonnegative) bases this crate feeds it. -/
noncomputable def powf (x y : ℝ) : ℝ := Real.rpow x y

/-- `util::std_gamma_encode` (util.rs lines 81-88). -/
noncomputable def std_gamma_encode (linear : ℝ) : ℝ :=
  if linear ≤ 0.0031308 then linear * 12.92
  else powf linear (1 / GAMMA) * 1.055 - 0.055

/-- `util::std_gamma_decode` (util.rs lines 91-98). -/
noncomputable def std_gamma_decode (encoded : ℝ) : ℝ :=
  if encoded ≤ 0.04045 then encoded / 12.92
  else powf ((encoded + 0.055) / 1.055) GAMMA

/-- `color.rs` private `gamma_encode` (line 6): the bare power law. -/
noncomputable def gamma_encode (linear : ℝ) : ℝ := powf linear (1 / GAMMA)

/-- `color.rs` private `gamma_decode` (line 7): the bare power law. -/
noncomputable def gamma_decode (encoded : ℝ) : ℝ := powf encoded GAMMA

/-- The per-channel `decode` closure of `SRGBColor::lin_rgb`
(color.rs lines 233-245). -/
noncomputable def srgb_decode_channel (encoded : ℝ) : ℝ :=
  if encoded ≤ 0.04045 then encoded / 12.92
  else gamma_decode ((encoded + 0.055) / 1.055)

/-- The per-channel `encode` closure of `color.rs`'s
`LinRGBColor::srgb` (color.rs lines 339-352). -/
noncomputable def srgb_encode_channel (linear : ℝ) : ℝ :=
  if linear ≤ 0.0031308 then linear * 12.92
  else gamma_encode linear * 1.055 - 0.055

/-- The per-channel conversion of the legacy module's
`LinRGBColor::srgb` (color/linrgb.rs lines 26-29): it applies
`gamma_encode` directly, with no linear segment. -/
noncomputable def legacy_srgb_channel (linear : ℝ) : ℝ := gamma_encode linear

/-- Modelled from the spec (refinement comparison only): the spec's
`encode(linear)` piecewise sRGB transfer function, written from the
spec's words "if `linear ≤ 0.0031308`, multiply by 12.92; otherwise
compute `1.055 * linear^(1/2.4) − 0.055`". -/
noncomputable def spec_encode (linear : ℝ) : ℝ :=
  if linear ≤ 0.0031308 then linear * 12.92
  else 1.055 * powf linear (1 / 2.4) - 0.055

/-- Modelled from the spec (refinement comparison only): the spec's
`decode(encoded)` function, written from the spec's words "if
`encoded ≤ 0.04045`, divide by 12.92; otherwise compute
`((encoded + 0.055)/1.055) ^ 2.4`". -/
noncomputable def spec_decode (encoded : ℝ) : ℝ :=
  if encoded ≤ 0.04045 then encoded / 12.92
  else powf ((encoded + 0.055) / 1.055) 2.4

/-! ### color.rs value types -/

/-- `BaseColor` (color.rs lines 11-21). -/
inductive BaseColor where
  | Black | Grey | White | Red | Yellow | Green | Cyan | Blue | Magenta
deriving DecidableEq, Repr

/-- `color.rs`'s `LinRGBColor` (lines 326-337): private fields, public
constructor that stores the arguments unchanged (no clamping). -/
structure LinRGBColor where
  r : ℚ
  g : ℚ
  b : ℚ
deriving DecidableEq

/-- `color.rs` `LinRGBColor::new` (line 335): `LinRGBColor { r, g, b }`. -/
def LinRGBColor.new (r g b : ℚ) : LinRGBColor := ⟨r, g, b⟩

/-- The legacy module's `LinRGBColor` (color/linrgb.rs lines 8-13). -/
structure LegacyLinRGBColor where
  r : ℚ
  g : ℚ
  b : ℚ
deriving DecidableEq

/-- Legacy `LinRGBColor::new` (color/linrgb.rs lines 19-22): each channel
is passed through `clamp(x, 0.0, 1.0)`. -/
def LegacyLinRGBColor.new (r g b : ℚ) : LegacyLinRGBColor :=
  ⟨clampQ r 0 1, clampQ g 0 1, clampQ b 0 1⟩

/-- `HSVColor` (color.rs lines 401-407; `_priv` prevents construction
that bypasses `new`). -/
structure HSVColor where
  h : ℚ
  s : ℚ
  v : ℚ
deriving DecidableEq

/-- `HSVColor::new` (color.rs lines 417-430): panics (here `none`) when
`s < 0.0 || s > 1.0` or `v < 0.0 || v > 1.0`; otherwise wraps `h` with
`% 360.0` plus a conditional `+ 360.0` and stores the triple. -/
def HSVColor.new (h s v : ℚ) : Option HSVColor :=
  if s < 0 ∨ 1 < s then none
  else if v < 0 ∨ 1 < v then none
  else some ⟨wrapP h 360, s, v⟩

/-- The Rust `as u8` cast from `f32` (saturating; truncates toward 0,
clamps into `[0, 255]`). -/
def u8cast (q : ℚ) : ℕ := (max 0 (min 255 (ratTrunc q))).toNat

/-- The 6-way sector match of `HSVColor::srgb` (color.rs lines 447-456);
the wildcard panic arm is `none`. -/
def sectorRGB : ℕ → ℚ → ℚ → Option (ℚ × ℚ × ℚ)
  | 0, c, x => some (c, x, 0)
  | 1, c, x => some (x, c, 0)
  | 2, c, x => some (0, c, x)
  | 3, c, x => some (0, x, c)
  | 4, c, x => some (x, 0, c)
  | 5, c, x => some (c, 0, x)
  | 6, c, x => some (c, 0, x)
  | _, _, _ => none

/-- `HSVColor::srgb` (color.rs lines 438-459): hue sector algorithm;
`h % 2.0` is the float remainder `fmodQ`. -/
def HSVColor.srgb (hsv : HSVColor) : Option (ℚ × ℚ × ℚ) :=
  let h := hsv.h / 60
  let c := hsv.s * hsv.v
  let x := c * (1 - |fmodQ h 2 - 1|)
  let m := hsv.v - c
  (sectorRGB (u8cast h) c x).map fun t => (t.1 + m, t.2.1 + m, t.2.2 + m)

/-! ### `Color::shades` (color.rs lines 69-155)

The trait default method reads `self` only through `self.hsv()` (giving
`h`, `s`) and `self.relative_luminance()` (giving `lum`), so it is
embedded as a function of those values. -/

/-- `COLOR_HUES` (color.rs lines 72-77). -/
def COLOR_HUES : List (ℚ × BaseColor) :=
  [(60, .Yellow), (120, .Green), (180, .Cyan), (240, .Blue), (300, .Magenta)]

/-- `HUE_MARGIN = 60.0 * 0.75` (color.rs line 83). -/
def HUE_MARGIN : ℚ := 60 * (75 / 100)

/-- `BLACK_CUTOFF_LUMINANCE = 0.005` (color.rs line 86). -/
def BLACK_CUTOFF_LUMINANCE : ℚ := 5 / 1000

/-- `GREYSCALE_SATURATION = 0.05` (color.rs line 89). -/
def GREYSCALE_SATURATION : ℚ := 5 / 100

/-- `WHITE_SATURATION = 0.35` (color.rs line 92). -/
def WHITE_SATURATION : ℚ := 35 / 100

/-- `WHITE_LUMINANCE = 0.40` (color.rs line 93). -/
def WHITE_LUMINANCE : ℚ := 40 / 100

/-- `GREY_SATURATION = 0.45` (color.rs line 95). -/
def GREY_SATURATION : ℚ := 45 / 100

/-- `GREY_LUMINANCE_MAX = 0.80` (color.rs line 96). -/
def GREY_LUMINANCE_MAX : ℚ := 80 / 100

/-- `GREY_LUMINANCE_MIN = 0.03` (color.rs line 97). -/
def GREY_LUMINANCE_MIN : ℚ := 3 / 100

/-- The red special case (color.rs lines 113-124).  Note the Rust
expression parses as `1.0 - ((if h <= HUE_MARGIN { h } else
{ h - 360.0 }) / HUE_MARGIN)`: the whole if-else is the dividend. -/
def redShades (h : ℚ) : List (BaseColor × ℚ) :=
  if 360 - HUE_MARGIN ≤ h ∨ h ≤ 0 + HUE_MARGIN then
    [(.Red, 1 - (if h ≤ 0 + HUE_MARGIN then h else h - 360) / HUE_MARGIN)]
  else []

/-- The `COLOR_HUES` loop (color.rs lines 125-132): one entry per named
hue whose absolute distance to `h` is within the margin. -/
def hueShades (h : ℚ) : List (BaseColor × ℚ) :=
  COLOR_HUES.filterMap fun hc =>
    if |h - hc.1| ≤ HUE_MARGIN then some (hc.2, 1 - |h - hc.1| / HUE_MARGIN)
    else none

/-- The greyscale tests (color.rs lines 135-148): black / white are
mutually exclusive, grey is tested independently. -/
def greyShades (s lum : ℚ) : List (BaseColor × ℚ) :=
  (if lum ≤ 45 / 1000 then [(.Black, 1)]
   else if WHITE_LUMINANCE ≤ lum ∧ s ≤ WHITE_SATURATION then [(.White, 1)]
   else [])
  ++ (if s ≤ GREY_SATURATION ∧ lum ≤ GREY_LUMINANCE_MAX ∧ GREY_LUMINANCE_MIN ≤ lum
      then [(.Grey, 1)] else [])

/-- All pre-normalization contributions pushed into `shades` (the hue
tests run only when `s > GREYSCALE_SATURATION`, color.rs line 112). -/
def shadeContributions (h s lum : ℚ) : List (BaseColor × ℚ) :=
  (if GREYSCALE_SATURATION < s then redShades h ++ hueShades h else [])
    ++ greyShades s lum

/-- The descending-by-weight comparator of the final sort (color.rs
lines 150-152: `amount2.partial_cmp(amount)`). -/
def shadeLe (p q : BaseColor × ℚ) : Bool := decide (q.2 ≤ p.2)

/-- `Color::shades` (color.rs lines 101-155): near-black short-circuit,
then sort the contributions by descending weight and divide each weight
by their running total. -/
def shades (h s lum : ℚ) : List (BaseColor × ℚ) :=
  if lum < BLACK_CUTOFF_LUMINANCE then [(.Black, 1)]
  else
    ((shadeContributions h s lum).mergeSort shadeLe).map fun p =>
      (p.1, p.2 / ((shadeContributions h s lum).map Prod.snd).sum)

/-! ### `Color::ansi_bgcolor` (color.rs lines 157-171)

The method reads `self` through `self.srgb24()` (the 8-bit channels
`r`, `g`, `b`) and `self.relative_luminance()` (`lum`). -/

/-- The ANSI control sequence introducer `"\u{1B}["` (color.rs line 159). -/
def CSI : String := "\x1B["

/-- The foreground escape chosen inside `ansi_bgcolor` (color.rs lines
163-168): white text when the luminance is below `gamma_decode(0.5)`
(the bare power law), the empty-parameter (black) escape otherwise. -/
noncomputable def fgEscape (lum : ℝ) : String :=
  if lum < gamma_decode (1 / 2) then CSI ++ "38;2;255;255;255m"
  else CSI ++ "38;2;;;m"

/-- `Color::ansi_bgcolor` (color.rs lines 158-171): foreground escape,
then `format!("\u{1B}[48;2;r;g;bm<text>\u{1B}[0m")`. -/
noncomputable def ansi_bgcolor (lum : ℝ) (r g b : ℕ) (text : String) : String :=
  let fg :=
    if lum < gamma_decode (1 / 2) then CSI ++ "38;2;255;255;255m"
    else CSI ++ "38;2;;;m"
  fg ++ (CSI ++ "48;2;" ++ toString r ++ ";" ++ toString g ++ ";"
        ++ toString b ++ "m" ++ text ++ CSI ++ "0m")

/-! ## Lemmas about the wrap-into-range pattern -/

theorem fmodQ_bounds (a p : ℚ) (hp : 0 < p) :
    (0 ≤ a / p → 0 ≤ fmodQ a p ∧ fmodQ a p < p)
    ∧ (a / p < 0 → -p < fmodQ a p ∧ fmodQ a p ≤ 0) := by
  have hp0 : p ≠ 0 := ne_of_gt hp
  have ha : a = p * (a / p) := by field_simp
  constructor
  · intro hq
    have h1 : fmodQ a p = p * (a / p - ⌊a / p⌋) := by
      rw [fmodQ, ratTrunc, if_pos hq, mul_sub, ← ha]
    have hf0 : (0 : ℚ) ≤ a / p - ⌊a / p⌋ := by
      have := Int.floor_le (a / p); linarith
    have hf1 : a / p - ⌊a / p⌋ < 1 := by
      have := Int.lt_floor_add_one (a / p); linarith
    refine ⟨by rw [h1]; positivity, ?_⟩
    rw [h1]
    calc p * (a / p - ⌊a / p⌋) < p * 1 := mul_lt_mul_of_pos_left hf1 hp
      _ = p := mul_one p
  · intro hq
    have h1 : fmodQ a p = p * (a / p - ⌈a / p⌉) := by
      rw [fmodQ, ratTrunc, if_neg (not_le.mpr hq), mul_sub, ← ha]
    have hf0 : a / p - ⌈a / p⌉ ≤ 0 := by
      have := Int.le_ceil (a / p); linarith
    have hf1 : (-1 : ℚ) < a / p - ⌈a / p⌉ := by
      have := Int.ceil_lt_add_one (a / p); linarith
    constructor
    · rw [h1]
      have := mul_lt_mul_of_pos_left hf1 hp
      linarith
    · rw [h1]
      nlinarith

theorem wrapP_mem (a p : ℚ) (hp : 0 < p) : 0 ≤ wrapP a p ∧ wrapP a p < p := by
  rcases le_or_lt 0 (a / p) with hq | hq
  · have h := (fmodQ_bounds a p hp).1 hq
    rw [wrapP, if_neg (not_lt.mpr h.1)]
    exact h
  · have h := (fmodQ_bounds a p hp).2 hq
    rw [wrapP]
    by_cases hm : fmodQ a p < 0
    · rw [if_pos hm]
      constructor <;> linarith [h.1]
    · rw [if_neg hm]
      push_neg at hm
      exact ⟨hm, by linarith [h.2]⟩

theorem wrapP_eq_of_mem (a p : ℚ) (hp : 0 < p) (h0 : 0 ≤ a) (h1 : a < p) :
    wrapP a p = a := by
  have hq0 : 0 ≤ a / p := div_nonneg h0 hp.le
  have hq1 : a / p < 1 := (div_lt_one hp).mpr h1
  have hfl : ⌊a / p⌋ = 0 := Int.floor_eq_zero_iff.mpr ⟨hq0, hq1⟩
  have hm : fmodQ a p = a := by
    rw [fmodQ, ratTrunc, if_pos hq0, hfl]
    push_cast
    ring
  rw [wrapP, hm, if_neg (not_lt.mpr h0)]

theorem wrapP_idem (a p : ℚ) (hp : 0 < p) : wrapP (wrapP a p) p = wrapP a p :=
  wrapP_eq_of_mem _ _ hp (wrapP_mem a p hp).1 (wrapP_mem a p hp).2

theorem wrapP_eval_of_floor (a p : ℚ) (k : ℤ) (hp : 0 < p) (hq : 0 ≤ a / p)
    (hk : ⌊a / p⌋ = k) : wrapP a p = a - p * k := by
  have hb := ((fmodQ_bounds a p hp).1 hq).1
  have hm : fmodQ a p = a - p * k := by rw [fmodQ, ratTrunc, if_pos hq, hk]
  rw [wrapP, hm, if_neg (not_lt.mpr (hm ▸ hb))]

theorem wrapP_eval_of_ceil (a p : ℚ) (k : ℤ) (hq : a / p < 0)
    (hk : ⌈a / p⌉ = k) (hneg : a - p * k < 0) : wrapP a p = a - p * k + p := by
  have hm : fmodQ a p = a - p * k := by
    rw [fmodQ, ratTrunc, if_neg (not_le.mpr hq), hk]
  rw [wrapP, hm, if_pos hneg]

theorem tmod360_lb (n : ℤ) : -360 < Int.tmod n 360 := by
  cases n with
  | ofNat m =>
    have h : 0 ≤ Int.tmod (Int.ofNat m) 360 :=
      Int.tmod_nonneg 360 (Int.ofNat_nonneg m)
    omega
  | negSucc m =>
    have he : Int.tmod (Int.negSucc m) 360 = -(((m + 1) % 360 : ℕ) : ℤ) := rfl
    have hlt : (m + 1) % 360 < 360 := Nat.mod_lt _ (by norm_num)
    rw [he]
    omega

theorem DegInt.to_range_mem (n : ℤ) :
    0 ≤ DegInt.to_range n ∧ DegInt.to_range n < 360 := by
  have h1 : Int.tmod n 360 < 360 := Int.tmod_lt_of_pos n (by norm_num)
  have h2 : -360 < Int.tmod n 360 := tmod360_lb n
  unfold DegInt.to_range
  split <;> omega

theorem DegInt.to_range_eq_of_mem (y : ℤ) (h0 : 0 ≤ y) (h1 : y < 360) :
    DegInt.to_range y = y := by
  unfold DegInt.to_range
  rw [Int.tmod_eq_of_lt h0 h1, if_neg (not_lt.mpr h0)]

theorem DegInt.to_range_idem (n : ℤ) :
    DegInt.to_range (DegInt.to_range n) = DegInt.to_range n :=
  DegInt.to_range_eq_of_mem _ (DegInt.to_range_mem n).1 (DegInt.to_range_mem n).2

/-! ## Claim theorems: bounded angles -/

/-- C1: the claim says every arithmetic operation on `Deg`/`Rad`,
including the `*_assign` forms, leaves the stored value in the canonical
range.  The code disagrees: `impl_deg_ops!`/`impl_rad_ops!` delegate the
`*_assign` forms to the payload's assignment operator without calling
`to_range` (angle.rs lines 154-160), contradicting the module's own
header "All operations done for these immediately wrap around, so it is
impossible to create a value out of bounds with them".  Evaluation at
the failing input `Deg(350.0) += Deg(20.0)`: the stored payload becomes
`370.0`, outside `[0, 360)`, while the by-value `add` correctly wraps
the same input to `10.0`. -/
theorem deg_add_assign_escapes_range :
    Deg.add_assign 350 20 = 370
    ∧ ¬ Deg.add_assign 350 20 < 360
    ∧ Deg.add 350 20 = 10 := by
  refine ⟨by norm_num [Deg.add_assign], by norm_num [Deg.add_assign], ?_⟩
  show wrapP (350 + 20) 360 = 10
  have h1 : (350 : ℚ) + 20 = 370 := by norm_num
  rw [h1]
  have hfl : ⌊(370 : ℚ) / 360⌋ = 1 := by
    rw [Int.floor_eq_iff]
    constructor <;> norm_num
  rw [wrapP_eval_of_floor 370 360 1 (by norm_num) (by norm_num) hfl]
  norm_num

/-- C2: every canonicalization in the crate is total into `[0, period)`
and idempotent: `Deg<f32>::to_range`, the integer `Deg::to_range` (whose
truncating `%` is corrected by the conditional `+ 360`, so the result is
the non-negative remainder), `Rad::to_range` with period `2π` (as `f32`),
and `util::Deg::new` (which computes the same wrap as
`Deg<f32>::to_range`). -/
theorem canonicalize_total_idem (x : ℚ) (n : ℤ) :
    (0 ≤ Deg.to_range x ∧ Deg.to_range x < 360)
    ∧ Deg.to_range (Deg.to_range x) = Deg.to_range x
    ∧ (0 ≤ DegInt.to_range n ∧ DegInt.to_range n < 360)
    ∧ DegInt.to_range (DegInt.to_range n) = DegInt.to_range n
    ∧ (0 ≤ Rad.to_range x ∧ Rad.to_range x < radPeriod)
    ∧ Rad.to_range (Rad.to_range x) = Rad.to_range x
    ∧ UtilDeg.new x = Deg.to_range x
    ∧ (0 ≤ UtilDeg.new x ∧ UtilDeg.new x < 360) := by
  have h360 : (0 : ℚ) < 360 := by norm_num
  have hrad : (0 : ℚ) < radPeriod := by norm_num [radPeriod]
  exact ⟨wrapP_mem x 360 h360, wrapP_idem x 360 h360, DegInt.to_range_mem n,
    DegInt.to_range_idem n, wrapP_mem x radPeriod hrad,
    wrapP_idem x radPeriod hrad, rfl, wrapP_mem x 360 h360⟩

/-! ## Lemmas about `HSVColor` -/

theorem HSVColor.new_eq_none_iff (h s v : ℚ) :
    HSVColor.new h s v = none ↔ s < 0 ∨ 1 < s ∨ v < 0 ∨ 1 < v := by
  constructor
  · intro he
    by_cases h1 : s < 0 ∨ 1 < s
    · tauto
    · unfold HSVColor.new at he
      rw [if_neg h1] at he
      by_cases h2 : v < 0 ∨ 1 < v
      · tauto
      · rw [if_neg h2] at he
        simp at he
  · intro hor
    unfold HSVColor.new
    by_cases h1 : s < 0 ∨ 1 < s
    · rw [if_pos h1]
    · rw [if_neg h1]
      have h2 : v < 0 ∨ 1 < v := by tauto
      rw [if_pos h2]

theorem HSVColor.new_eq_some (h s v : ℚ) (hs0 : 0 ≤ s) (hs1 : s ≤ 1)
    (hv0 : 0 ≤ v) (hv1 : v ≤ 1) :
    HSVColor.new h s v = some ⟨wrapP h 360, s, v⟩ := by
  have h1 : ¬ (s < 0 ∨ 1 < s) := by push_neg; exact ⟨hs0, hs1⟩
  have h2 : ¬ (v < 0 ∨ 1 < v) := by push_neg; exact ⟨hv0, hv1⟩
  unfold HSVColor.new
  rw [if_neg h1, if_neg h2]

theorem wrapP_neg_thirty : wrapP (-30 : ℚ) 360 = 330 := by
  have hceil : ⌈(-30 : ℚ) / 360⌉ = 0 := by
    rw [Int.ceil_eq_iff]
    constructor <;> norm_num
  rw [wrapP_eval_of_ceil (-30) 360 0 (by norm_num) hceil (by norm_num)]
  norm_num

theorem sectorRGB_isSome (n : ℕ) (hn : n ≤ 6) (c x : ℚ) :
    (sectorRGB n c x).isSome := by
  interval_cases n <;> rfl

theorem u8cast_le_five (q : ℚ) (h0 : 0 ≤ q) (h6 : q < 6) : u8cast q ≤ 5 := by
  have hq : ratTrunc q = ⌊q⌋ := if_pos h0
  have hf0 : 0 ≤ ⌊q⌋ := Int.floor_nonneg.mpr h0
  have hf5 : ⌊q⌋ < 6 := by
    rw [Int.floor_lt]
    exact_mod_cast h6
  unfold u8cast
  rw [hq, min_eq_right (by omega : ⌊q⌋ ≤ (255 : ℤ)), max_eq_right hf0]
  omega

theorem HSVColor.srgb_isSome (hsv : HSVColor) (h0 : 0 ≤ hsv.h)
    (h1 : hsv.h < 360) : (HSVColor.srgb hsv).isSome := by
  have hd0 : 0 ≤ hsv.h / 60 := div_nonneg h0 (by norm_num)
  have hd1 : hsv.h / 60 < 6 := by
    rw [div_lt_iff₀ (by norm_num)]
    linarith
  have hn : u8cast (hsv.h / 60) ≤ 5 := u8cast_le_five _ hd0 hd1
  unfold HSVColor.srgb
  simp only [Option.isSome_map']
  exact sectorRGB_isSome _ (by omega) _ _

/-! ## Claim theorems: HSV construction and conversion -/

/-- C3: `HSVColor::new(h, s, v)` panics exactly when `s < 0.0 || s > 1.0`
or `v < 0.0 || v > 1.0`; for `s`, `v` in `[0, 1]` it succeeds for every
(finite) `h` and stores `h` wrapped into `[0, 360)`; in particular
`HSVColor::new(-30.0, 0.5, 0.5)` succeeds with stored hue exactly
`330.0`. -/
theorem hsv_new_spec (h s v : ℚ) :
    (HSVColor.new h s v = none ↔ s < 0 ∨ 1 < s ∨ v < 0 ∨ 1 < v)
    ∧ (0 ≤ s → s ≤ 1 → 0 ≤ v → v ≤ 1 →
        HSVColor.new h s v = some ⟨wrapP h 360, s, v⟩
        ∧ 0 ≤ wrapP h 360 ∧ wrapP h 360 < 360)
    ∧ HSVColor.new (-30) (1/2) (1/2) = some ⟨330, 1/2, 1/2⟩ := by
  refine ⟨HSVColor.new_eq_none_iff h s v, ?_, ?_⟩
  · intro hs0 hs1 hv0 hv1
    exact ⟨HSVColor.new_eq_some h s v hs0 hs1 hv0 hv1, wrapP_mem h 360 (by norm_num)⟩
  · rw [HSVColor.new_eq_some (-30) (1/2) (1/2) (by norm_num) (by norm_num)
      (by norm_num) (by norm_num), wrapP_neg_thirty]

/-- C3 witness: instantiated at `h = 10`, `s = v = 1/2`, with the wrapped
hue evaluated. -/
theorem hsv_new_spec_witness :
    (HSVColor.new 10 (1/2) (1/2) = some ⟨wrapP 10 360, 1/2, 1/2⟩
      ∧ 0 ≤ wrapP (10 : ℚ) 360 ∧ wrapP (10 : ℚ) 360 < 360)
    ∧ wrapP (10 : ℚ) 360 = 10 :=
  ⟨(hsv_new_spec 10 (1/2) (1/2)).2.1 (by norm_num) (by norm_num) (by norm_num)
      (by norm_num),
   wrapP_eq_of_mem 10 360 (by norm_num) (by norm_num) (by norm_num)⟩

/-- C9: for every `HSVColor` built by `HSVColor::new` (so hue wrapped
into `[0, 360)`, `s`, `v` in `[0, 1]`), `srgb` never reaches the
"Invalid hue value" panic arm: the truncating `as u8` cast of `hue/60`
lands in `0..=5`, and the `5|6` arm gives sector 6 the same channel
ordering as sector 5. -/
theorem hsv_srgb_no_panic (h s v : ℚ) (hs0 : 0 ≤ s) (hs1 : s ≤ 1)
    (hv0 : 0 ≤ v) (hv1 : v ≤ 1) :
    (∃ hsv, HSVColor.new h s v = some hsv ∧ (HSVColor.srgb hsv).isSome
      ∧ u8cast (hsv.h / 60) ≤ 5)
    ∧ ∀ c x : ℚ, sectorRGB 6 c x = sectorRGB 5 c x := by
  obtain ⟨hw0, hw1⟩ := wrapP_mem h 360 (by norm_num)
  refine ⟨⟨⟨wrapP h 360, s, v⟩, HSVColor.new_eq_some h s v hs0 hs1 hv0 hv1,
    HSVColor.srgb_isSome _ hw0 hw1, ?_⟩, fun c x => rfl⟩
  refine u8cast_le_five _ (div_nonneg hw0 (by norm_num)) ?_
  rw [div_lt_iff₀ (by norm_num)]
  linarith

/-- C9 witness: instantiated at `h = 0`, `s = v = 1`. -/
theorem hsv_srgb_no_panic_witness :
    (∃ hsv, HSVColor.new 0 1 1 = some hsv ∧ (HSVColor.srgb hsv).isSome
      ∧ u8cast (hsv.h / 60) ≤ 5)
    ∧ ∀ c x : ℚ, sectorRGB 6 c x = sectorRGB 5 c x :=
  hsv_srgb_no_panic 0 1 1 (by norm_num) (by norm_num) (by norm_num) (by norm_num)

/-! ## Lemmas about `clamp` -/

theorem clampQ_mem (x : ℚ) : 0 ≤ clampQ x 0 1 ∧ clampQ x 0 1 ≤ 1 := by
  unfold clampQ
  by_cases h1 : x < 1
  · rw [if_pos h1]
    by_cases h0 : 0 < x
    · rw [if_pos h0]
      exact ⟨h0.le, h1.le⟩
    · rw [if_neg h0]
      norm_num
  · rw [if_neg h1]
    norm_num

theorem clampF_fin (v lo hi : ℚ) :
    clampF (.fin v) (.fin lo) (.fin hi) = .fin (clampQ v lo hi) := by
  simp only [clampF, pcmp, clampQ]
  by_cases h1 : v < hi
  · rw [if_pos h1, if_pos h1]
    by_cases h0 : lo < v
    · rw [if_neg (not_lt.mpr h0.le), if_pos h0, if_pos h0]
    · rw [if_neg h0, if_neg h0]
      by_cases h2 : v < lo
      · rw [if_pos h2]
      · rw [if_neg h2]
  · rw [if_neg h1, if_neg h1]
    by_cases hgt : hi < v
    · rw [if_pos hgt]
    · rw [if_neg hgt]

/-! ## Claim theorems: `clamp` and linear-RGB construction -/

/-- C10: `util::clamp` returns `max` whenever `value` fails to compare
with `max` (in particular `clamp(NaN, min, max) = max`, and `max` itself
when `max` is NaN); otherwise it returns `min` when `value ≤ min` or
`value` is incomparable with `min`, `value` when `min < value < max`,
and `max` when `value ≥ max`. -/
theorem clamp_spec (v lo hi : ℚ) :
    (∀ a b : F32, clampF .nan a b = b)
    ∧ (∀ x a : F32, clampF x a .nan = .nan)
    ∧ (hi ≤ v → clampF (.fin v) (.fin lo) (.fin hi) = .fin hi)
    ∧ (v < hi → v ≤ lo → clampF (.fin v) (.fin lo) (.fin hi) = .fin lo)
    ∧ (v < hi → clampF (.fin v) .nan (.fin hi) = .nan)
    ∧ (lo < v → v < hi → clampF (.fin v) (.fin lo) (.fin hi) = .fin v) := by
  refine ⟨?_, ?_, ?_, ?_, ?_, ?_⟩
  · intro a b
    cases b <;> rfl
  · intro x a
    cases x <;> rfl
  · intro hle
    simp only [clampF, pcmp]
    rw [if_neg (not_lt.mpr hle)]
    by_cases hgt : hi < v
    · rw [if_pos hgt]
    · rw [if_neg hgt]
  · intro hlt hle
    simp only [clampF, pcmp]
    rw [if_pos hlt]
    by_cases heq : v < lo
    · rw [if_pos heq]
    · rw [if_neg heq, if_neg (not_lt.mpr hle)]
  · intro hlt
    simp only [clampF, pcmp]
    rw [if_pos hlt]
  · intro hgt hlt
    simp only [clampF, pcmp]
    rw [if_pos hlt, if_neg (not_lt.mpr hgt.le), if_pos hgt]

/-- C10 witness: concrete instantiation `clamp(1, 0, 2) = 1` and
`clamp(NaN, 0, 2) = 2`. -/
theorem clamp_spec_witness :
    clampF (.fin 1) (.fin 0) (.fin 2) = .fin 1
    ∧ clampF .nan (.fin 0) (.fin 2) = .fin 2 :=
  ⟨(clamp_spec 1 0 2).2.2.2.2.2 (by norm_num) (by norm_num),
   (clamp_spec 1 0 2).1 (.fin 0) (.fin 2)⟩

/-- C5 counterexample: `color.rs`'s `LinRGBColor::new(2.0, 0.0, 0.0)`
stores red channel `2.0`, outside `[0, 1]`: that constructor performs no
clamping, so out-of-range channels are reachable through it. -/
theorem color_linrgb_new_unclamped :
    (LinRGBColor.new 2 0 0).r = 2 ∧ ¬ (LinRGBColor.new 2 0 0).r ≤ 1 := by
  refine ⟨rfl, ?_⟩
  show ¬ (2 : ℚ) ≤ 1
  norm_num

/-- C5 amended: the legacy module's `LinRGBColor::new` clamps each
channel into `[0, 1]` (each channel is `clamp(x, 0.0, 1.0)`), so every
value built by it satisfies the range invariant; the `color.rs`
`LinRGBColor::new` stores its three arguments unchanged. -/
theorem linrgb_new_clamps (r g b : ℚ) :
    (0 ≤ (LegacyLinRGBColor.new r g b).r ∧ (LegacyLinRGBColor.new r g b).r ≤ 1)
    ∧ (0 ≤ (LegacyLinRGBColor.new r g b).g ∧ (LegacyLinRGBColor.new r g b).g ≤ 1)
    ∧ (0 ≤ (LegacyLinRGBColor.new r g b).b ∧ (LegacyLinRGBColor.new r g b).b ≤ 1)
    ∧ (LegacyLinRGBColor.new r g b).r = clampQ r 0 1
    ∧ LinRGBColor.new r g b = ⟨r, g, b⟩ :=
  ⟨clampQ_mem r, clampQ_mem g, clampQ_mem b, rfl, rfl⟩

/-! ## Lemmas about the gamma functions -/

theorem powf_eq_rpow (x y : ℝ) : powf x y = x ^ y := rfl

theorem powf_pow_five_half : (powf (1/2) GAMMA) ^ (5 : ℕ) = ((1 : ℝ)/2) ^ (12 : ℕ) := by
  rw [powf_eq_rpow, GAMMA, ← Real.rpow_natCast (((1 : ℝ)/2) ^ (2.4 : ℝ)) 5,
    ← Real.rpow_mul (by norm_num)]
  rw [show ((2.4 : ℝ) * ((5 : ℕ) : ℝ)) = ((12 : ℕ) : ℝ) by push_cast; norm_num]
  rw [Real.rpow_natCast]

theorem powf_pow_five_codec :
    (powf (111/211) GAMMA) ^ (5 : ℕ) = ((111 : ℝ)/211) ^ (12 : ℕ) := by
  rw [powf_eq_rpow, GAMMA, ← Real.rpow_natCast (((111 : ℝ)/211) ^ (2.4 : ℝ)) 5,
    ← Real.rpow_mul (by norm_num)]
  rw [show ((2.4 : ℝ) * ((5 : ℕ) : ℝ)) = ((12 : ℕ) : ℝ) by push_cast; norm_num]
  rw [Real.rpow_natCast]

/-! ## Claim theorems: gamma codec -/

/-- C4 counterexample: at linear channel value `0.5` the legacy module's
conversion differs from the piecewise encode: since `0.5^(1/2.4) < 1`,
`1.055 * 0.5^(1/2.4) - 0.055 < 0.5^(1/2.4)`, so the bare power law and
the piecewise function disagree there. -/
theorem legacy_srgb_not_piecewise :
    legacy_srgb_channel (1/2) ≠ std_gamma_encode (1/2) := by
  have hne : ¬ ((1 : ℝ)/2 ≤ 0.0031308) := by norm_num
  have ht : powf (1/2) (1 / GAMMA) < 1 := by
    rw [powf_eq_rpow]
    exact Real.rpow_lt_one (by norm_num) (by norm_num) (by norm_num [GAMMA])
  unfold legacy_srgb_channel gamma_encode std_gamma_encode
  rw [if_neg hne]
  intro heq
  linarith [heq, ht]

/-- C4 amended: the gamma codec functions `std_gamma_encode` /
`std_gamma_decode` are exactly the spec's piecewise sRGB transfer
functions, the exponent is the named constant `GAMMA = 2.4` shared by
both directions, and `color.rs`'s per-channel sRGB↔linear conversions
agree with them; but the legacy module's `LinRGBColor::srgb` channel
conversion is the bare power law `x^(1/2.4)`, not the piecewise
function. -/
theorem gamma_codec_spec (x : ℝ) :
    std_gamma_encode x = spec_encode x
    ∧ std_gamma_decode x = spec_decode x
    ∧ srgb_decode_channel x = std_gamma_decode x
    ∧ srgb_encode_channel x = std_gamma_encode x
    ∧ legacy_srgb_channel x = powf x (1 / GAMMA)
    ∧ GAMMA = 2.4 := by
  refine ⟨?_, rfl, rfl, rfl, rfl, rfl⟩
  unfold std_gamma_encode spec_encode GAMMA
  by_cases h : x ≤ 0.0031308
  · rw [if_pos h, if_pos h]
  · rw [if_neg h, if_neg h]
    ring

/-! ## Claim theorems: ANSI background rendering -/

/-- C8 counterexample: at luminance `0.2` the code emits the black
foreground escape (because `0.5^2.4 ≤ 0.2`), yet `0.2` lies below the
Gamma Codec's decode of `0.5` (the piecewise `std_gamma_decode`), where
the claim predicts white — so the code's threshold is not the codec's
decoded midpoint. -/
theorem ansi_threshold_mismatch :
    fgEscape (1/5) = CSI ++ "38;2;;;m"
    ∧ (1/5 : ℝ) < std_gamma_decode (1/2) := by
  constructor
  · have hle : powf (1/2) GAMMA ≤ 1/5 := by
      have h2 : (powf (1/2) GAMMA) ^ (5 : ℕ) ≤ ((1 : ℝ)/5) ^ (5 : ℕ) := by
        rw [powf_pow_five_half]
        norm_num
      exact le_of_pow_le_pow_left₀ (by norm_num) (by norm_num) h2
    unfold fgEscape gamma_decode
    rw [if_neg (not_lt.mpr hle)]
  · have h111 : ((1 : ℝ)/2 + 0.055) / 1.055 = 111/211 := by norm_num
    unfold std_gamma_decode
    rw [if_neg (by norm_num : ¬ ((1 : ℝ)/2 ≤ 0.04045)), h111]
    have hlt : ((1 : ℝ)/5) ^ (5 : ℕ) < (powf (111/211) GAMMA) ^ (5 : ℕ) := by
      rw [powf_pow_five_codec]
      norm_num
    exact lt_of_pow_lt_pow_left₀ 5
      (by rw [powf_eq_rpow]; exact Real.rpow_nonneg (by norm_num) _) hlt

/-- C8 amended: `ansi_bgcolor` emits the foreground escape before the
background escape built from the 8-bit channels, and selects the white
foreground exactly when the relative luminance is below
`gamma_decode(0.5)` — the bare power law `0.5^2.4` of `color.rs`, not
the piecewise codec decode, and not raw `0.5`. -/
theorem ansi_bgcolor_spec (lum : ℝ) (r g b : ℕ) (text : String) :
    ansi_bgcolor lum r g b text
      = fgEscape lum ++ (CSI ++ "48;2;" ++ toString r ++ ";" ++ toString g
          ++ ";" ++ toString b ++ "m" ++ text ++ CSI ++ "0m")
    ∧ (fgEscape lum = CSI ++ "38;2;255;255;255m" ↔ lum < gamma_decode (1/2))
    ∧ (fgEscape lum = CSI ++ "38;2;;;m" ↔ ¬ lum < gamma_decode (1/2)) := by
  refine ⟨rfl, ?_, ?_⟩
  · constructor
    · intro heq
      by_contra hl
      rw [show fgEscape lum = (if lum < gamma_decode (1/2) then
            CSI ++ "38;2;255;255;255m" else CSI ++ "38;2;;;m") from rfl,
        if_neg hl] at heq
      exact absurd heq (by decide)
    · intro hl
      rw [show fgEscape lum = (if lum < gamma_decode (1/2) then
            CSI ++ "38;2;255;255;255m" else CSI ++ "38;2;;;m") from rfl,
        if_pos hl]
  · constructor
    · intro heq hl
      rw [show fgEscape lum = (if lum < gamma_decode (1/2) then
            CSI ++ "38;2;255;255;255m" else CSI ++ "38;2;;;m") from rfl,
        if_pos hl] at heq
      exact absurd heq (by decide)
    · intro hl
      rw [show fgEscape lum = (if lum < gamma_decode (1/2) then
            CSI ++ "38;2;255;255;255m" else CSI ++ "38;2;;;m") from rfl,
        if_neg hl]

/-! ## Lemmas about `shades` -/

theorem HUE_MARGIN_eq : HUE_MARGIN = 45 := by norm_num [HUE_MARGIN]

theorem mem_hueShades (h hue : ℚ) (c : BaseColor) (hmem : (hue, c) ∈ COLOR_HUES)
    (hd : |h - hue| ≤ HUE_MARGIN) :
    (c, 1 - |h - hue| / HUE_MARGIN) ∈ hueShades h := by
  unfold hueShades
  refine List.mem_filterMap.mpr ⟨(hue, c), hmem, ?_⟩
  rw [if_pos hd]

theorem contributions_nonneg (h s lum : ℚ) (h1 : h < 360) :
    ∀ p ∈ shadeContributions h s lum, 0 ≤ p.2 := by
  intro p hp
  unfold shadeContributions at hp
  rcases List.mem_append.mp hp with hp | hp
  · by_cases hs : GREYSCALE_SATURATION < s
    · rw [if_pos hs] at hp
      rcases List.mem_append.mp hp with hp | hp
      · unfold redShades at hp
        split_ifs at hp with hc hle
        · rw [List.mem_singleton] at hp
          subst hp
          show 0 ≤ 1 - h / HUE_MARGIN
          rw [HUE_MARGIN_eq]
          rw [HUE_MARGIN_eq] at hle
          have hd : h / 45 ≤ 1 := by
            rw [div_le_one (by norm_num)]
            linarith
          linarith
        · rw [List.mem_singleton] at hp
          subst hp
          show 0 ≤ 1 - (h - 360) / HUE_MARGIN
          rw [HUE_MARGIN_eq]
          have hd : (h - 360) / 45 < 0 :=
            div_neg_of_neg_of_pos (by linarith) (by norm_num)
          linarith
        · simp at hp
      · unfold hueShades at hp
        obtain ⟨hc, hcmem, heq⟩ := List.mem_filterMap.mp hp
        split_ifs at heq with hd
        · rw [Option.some_inj] at heq
          subst heq
          show 0 ≤ 1 - |h - hc.1| / HUE_MARGIN
          have hdd : |h - hc.1| / HUE_MARGIN ≤ 1 := by
            rw [div_le_one (by norm_num [HUE_MARGIN])]
            exact hd
          linarith
    · rw [if_neg hs] at hp
      simp at hp
  · unfold greyShades at hp
    rcases List.mem_append.mp hp with hp | hp <;> split_ifs at hp <;>
      simp at hp <;> simp [hp]

theorem contributions_exists_pos (h s lum : ℚ) (h1 : h < 360) :
    ∃ p ∈ shadeContributions h s lum, 0 < p.2 := by
  unfold shadeContributions
  by_cases hs : GREYSCALE_SATURATION < s
  · rw [if_pos hs]
    have key : ∃ p ∈ redShades h ++ hueShades h, 0 < p.2 := by
      have stripe : ∀ hue : ℚ, ∀ c : BaseColor, (hue, c) ∈ COLOR_HUES →
          |h - hue| ≤ 30 → ∃ p ∈ redShades h ++ hueShades h, 0 < p.2 := by
        intro hue c hcmem hd
        refine ⟨(c, 1 - |h - hue| / HUE_MARGIN), List.mem_append_right _
          (mem_hueShades h hue c hcmem (by rw [HUE_MARGIN_eq]; linarith)), ?_⟩
        show 0 < 1 - |h - hue| / HUE_MARGIN
        rw [HUE_MARGIN_eq]
        have : |h - hue| / 45 < 1 := by
          rw [div_lt_one (by norm_num)]
          linarith
        linarith
      rcases le_or_lt h 30 with hc | hc
      · -- red, low side of the wrap
        refine ⟨(.Red, 1 - h / HUE_MARGIN), List.mem_append_left _ ?_, ?_⟩
        · unfold redShades
          rw [if_pos (Or.inr (by rw [HUE_MARGIN_eq]; linarith)),
            if_pos (by rw [HUE_MARGIN_eq]; linarith)]
          exact List.mem_singleton.mpr rfl
        · show 0 < 1 - h / HUE_MARGIN
          rw [HUE_MARGIN_eq]
          have : h / 45 < 1 := by
            rw [div_lt_one (by norm_num)]
            linarith
          linarith
      rcases le_or_lt h 90 with hc2 | hc2
      · exact stripe 60 .Yellow (by unfold COLOR_HUES; simp)
          (abs_le.mpr ⟨by linarith, by linarith⟩)
      rcases le_or_lt h 150 with hc3 | hc3
      · exact stripe 120 .Green (by unfold COLOR_HUES; simp)
          (abs_le.mpr ⟨by linarith, by linarith⟩)
      rcases le_or_lt h 210 with hc4 | hc4
      · exact stripe 180 .Cyan (by unfold COLOR_HUES; simp)
          (abs_le.mpr ⟨by linarith, by linarith⟩)
      rcases le_or_lt h 270 with hc5 | hc5
      · exact stripe 240 .Blue (by unfold COLOR_HUES; simp)
          (abs_le.mpr ⟨by linarith, by linarith⟩)
      rcases le_or_lt h 330 with hc6 | hc6
      · exact stripe 300 .Magenta (by unfold COLOR_HUES; simp)
          (abs_le.mpr ⟨by linarith, by linarith⟩)
      · -- red, high side of the wrap
        refine ⟨(.Red, 1 - (h - 360) / HUE_MARGIN), List.mem_append_left _ ?_, ?_⟩
        · unfold redShades
          rw [if_pos (Or.inl (by rw [HUE_MARGIN_eq]; linarith)),
            if_neg (by rw [HUE_MARGIN_eq]; intro hcon; linarith)]
          exact List.mem_singleton.mpr rfl
        · show 0 < 1 - (h - 360) / HUE_MARGIN
          rw [HUE_MARGIN_eq]
          have : (h - 360) / 45 < 0 :=
            div_neg_of_neg_of_pos (by linarith) (by norm_num)
          linarith
    obtain ⟨p, hp, hpos⟩ := key
    exact ⟨p, List.mem_append_left _ hp, hpos⟩
  · rw [if_neg hs]
    push_neg at hs
    have hs' : s ≤ 5 / 100 := by
      rw [GREYSCALE_SATURATION] at hs
      linarith
    rw [List.nil_append]
    unfold greyShades
    by_cases hb : lum ≤ 45 / 1000
    · refine ⟨(.Black, 1), List.mem_append_left _ ?_, by norm_num⟩
      rw [if_pos hb]
      exact List.mem_singleton.mpr rfl
    · by_cases hw : WHITE_LUMINANCE ≤ lum
      · refine ⟨(.White, 1), List.mem_append_left _ ?_, by norm_num⟩
        rw [if_neg hb, if_pos ⟨hw, by rw [WHITE_SATURATION]; linarith⟩]
        exact List.mem_singleton.mpr rfl
      · refine ⟨(.Grey, 1), List.mem_append_right _ ?_, by norm_num⟩
        rw [WHITE_LUMINANCE] at hw
        push_neg at hb hw
        rw [if_pos ⟨by rw [GREY_SATURATION]; linarith,
          by rw [GREY_LUMINANCE_MAX]; linarith,
          by rw [GREY_LUMINANCE_MIN]; linarith⟩]
        exact List.mem_singleton.mpr rfl

theorem contributions_sum_pos (h s lum : ℚ) (h1 : h < 360) :
    0 < ((shadeContributions h s lum).map Prod.snd).sum := by
  obtain ⟨p, hpmem, hppos⟩ := contributions_exists_pos h s lum h1
  have hle : p.2 ≤ ((shadeContributions h s lum).map Prod.snd).sum := by
    refine List.single_le_sum ?_ p.2 (List.mem_map_of_mem Prod.snd hpmem)
    intro x hx
    obtain ⟨q, hq, rfl⟩ := List.mem_map.mp hx
    exact contributions_nonneg h s lum h1 q hq
  linarith

theorem sum_map_div (l : List (BaseColor × ℚ)) (c : ℚ) :
    (l.map fun p => p.2 / c).sum = (l.map Prod.snd).sum / c := by
  induction l with
  | nil => simp
  | cons a t ih => simp [ih, add_div]

/-! ## Claim theorems: shade categorization -/

/-- C6: the claim (and the spec, and the symmetric `COLOR_HUES` loop)
require every pre-normalization hue-match weight in `[0, 1]`, decaying
to `0` at the margin boundary.  The red wrap-around branch instead
computes `1 - (h - 360)/HUE_MARGIN = 1 + (360 - h)/HUE_MARGIN` on the
high side — the sign of the distance is not flipped — yielding weights
in `(1, 2]`.  Evaluation at hue `359`, saturation `1`: the pushed red
weight is `46/45 > 1` (a hue one degree from red should weigh
`1 - 1/45 = 44/45`). -/
theorem red_wrap_weight_exceeds_one :
    (BaseColor.Red, (46 : ℚ)/45) ∈ shadeContributions 359 1 (3/10)
    ∧ ¬ ((46 : ℚ)/45 ≤ 1) := by
  constructor
  · unfold shadeContributions
    rw [if_pos (by norm_num [GREYSCALE_SATURATION] :
      GREYSCALE_SATURATION < (1 : ℚ))]
    apply List.mem_append_left
    apply List.mem_append_left
    unfold redShades
    rw [if_pos (Or.inl (by rw [HUE_MARGIN_eq]; norm_num)),
      if_neg (by rw [HUE_MARGIN_eq]; norm_num)]
    rw [HUE_MARGIN_eq]
    rw [List.mem_singleton]
    norm_num
  · norm_num

/-- C7: for every color (hue in `[0, 360)` as produced by `hsv()`,
saturation and luminance in `[0, 1]`), `shades()` returns a non-empty
list of `(BaseColor, weight)` pairs sorted by descending weight whose
weights sum exactly to `1`: either the near-black short-circuit
`[(Black, 1)]`, or at least one hue/greyscale contribution renormalized
by the total. -/
theorem shades_spec (h s lum : ℚ) (h0 : 0 ≤ h) (h1 : h < 360)
    (hs0 : 0 ≤ s) (hs1 : s ≤ 1) (hl0 : 0 ≤ lum) (hl1 : lum ≤ 1) :
    shades h s lum ≠ []
    ∧ (shades h s lum).Pairwise (fun p q => q.2 ≤ p.2)
    ∧ ((shades h s lum).map Prod.snd).sum = 1 := by
  unfold shades
  by_cases hcut : lum < BLACK_CUTOFF_LUMINANCE
  · rw [if_pos hcut]
    exact ⟨by simp, List.pairwise_singleton _ _, by simp⟩
  · rw [if_neg hcut]
    have hTpos : 0 < ((shadeContributions h s lum).map Prod.snd).sum :=
      contributions_sum_pos h s lum h1
    have hperm : List.Perm ((shadeContributions h s lum).mergeSort shadeLe)
        (shadeContributions h s lum) :=
      List.mergeSort_perm (shadeContributions h s lum) shadeLe
    refine ⟨?_, ?_, ?_⟩
    · obtain ⟨p, hp, _⟩ := contributions_exists_pos h s lum h1
      intro hnil
      rw [List.map_eq_nil_iff] at hnil
      have := hperm.length_eq
      rw [hnil] at this
      have hlen : 0 < (shadeContributions h s lum).length :=
        List.length_pos_of_mem hp
      simp at this
      rw [← this] at hlen
      simp at hlen
    · have hsorted : ((shadeContributions h s lum).mergeSort shadeLe).Pairwise
          fun p q => shadeLe p q = true := by
        refine List.sorted_mergeSort ?_ ?_ (shadeContributions h s lum)
        · intro a b c hab hbc
          simp only [shadeLe, decide_eq_true_eq] at hab hbc ⊢
          exact le_trans hbc hab
        · intro a b
          simp only [shadeLe, Bool.or_eq_true, decide_eq_true_eq]
          exact le_total b.2 a.2
      refine List.Pairwise.map _ ?_ hsorted
      intro a b hab
      simp only [shadeLe, decide_eq_true_eq] at hab
      show b.2 / ((shadeContributions h s lum).map Prod.snd).sum
        ≤ a.2 / ((shadeContributions h s lum).map Prod.snd).sum
      gcongr
    · rw [List.map_map]
      have hmm : (Prod.snd ∘ fun p : BaseColor × ℚ =>
          (p.1, p.2 / ((shadeContributions h s lum).map Prod.snd).sum))
          = fun p : BaseColor × ℚ =>
            p.2 / ((shadeContributions h s lum).map Prod.snd).sum := rfl
      rw [hmm, sum_map_div]
      rw [(hperm.map Prod.snd).sum_eq]
      exact div_self (ne_of_gt hTpos)

/-- C7 witness: instantiated at hue `0`, saturation `1`, luminance
`1/2`. -/
theorem shades_spec_witness :
    shades 0 1 (1/2) ≠ []
    ∧ (shades 0 1 (1/2)).Pairwise (fun p q => q.2 ≤ p.2)
    ∧ ((shades 0 1 (1/2)).map Prod.snd).sum = 1 :=
  shades_spec 0 1 (1/2) (by norm_num) (by norm_num) (by norm_num) (by norm_num)
    (by norm_num) (by norm_num)

end MyColorLib
